import Mathlib

/-!
Verification of the WildfireCodesign repository: a shallow embedding of the
two scripts `scripts/plot_wildfire_pareto.py` and `scripts/gen_catalogues.py`,
together with theorems settling the specification claims about them.

Numeric values (Python floats in the plotter, ints in the generator) are
modelled as `ℚ` and `ℤ` respectively; Python's `float("inf")` running minimum
is modelled with `Option ℚ` (`none` standing for infinity).  Fallible code
paths (IndexError, the empty-antichain and configuration errors of `main`)
are modelled with `Option`/`Except`.
-/

namespace Wildfire

/-! ## Embedding of `pareto_2d_min` (plot_wildfire_pareto.py, lines 54-69) -/

/-- Sort key used by `pareto_2d_min`: Python's stable `pts.sort(key=lambda t:
(t[1][0], t[1][1]))` sorts the enumerated points by load ascending, then cost
ascending.  Python's stable sort is modelled by the (equally stable)
`List.insertionSort` with this total relation on `(index, (load, cost))`. -/
def paretoLe (a b : ℕ × ℚ × ℚ) : Prop :=
  a.2.1 < b.2.1 ∨ (a.2.1 = b.2.1 ∧ a.2.2 ≤ b.2.2)

instance (a b : ℕ × ℚ × ℚ) : Decidable (paretoLe a b) := by
  unfold paretoLe
  infer_instance

instance : IsTotal (ℕ × ℚ × ℚ) paretoLe := ⟨by
  intro a b
  rcases lt_trichotomy a.2.1 b.2.1 with h | h | h
  · exact Or.inl (Or.inl h)
  · rcases le_total a.2.2 b.2.2 with h2 | h2
    · exact Or.inl (Or.inr ⟨h, h2⟩)
    · exact Or.inr (Or.inr ⟨h.symm, h2⟩)
  · exact Or.inr (Or.inl h)⟩

instance : IsTrans (ℕ × ℚ × ℚ) paretoLe := ⟨by
  intro a b c hab hbc
  rcases hab with h | ⟨e, h⟩ <;> rcases hbc with h2 | ⟨e2, h2⟩
  · exact Or.inl (h.trans h2)
  · exact Or.inl (lt_of_lt_of_le h (le_of_eq e2))
  · exact Or.inl (lt_of_le_of_lt (le_of_eq e) h2)
  · exact Or.inr ⟨e.trans e2, h.trans h2⟩⟩

/-- Python `c < best_cost` where `best_cost` starts at `float("inf")`:
`none` models infinity. -/
def ltBest (c : ℚ) : Option ℚ → Bool
  | Option.none => true
  | Option.some b => decide (c < b)

/-- The scan loop of `pareto_2d_min`: walk the sorted enumerated points keeping
a running minimum cost, retaining a point iff its cost is strictly smaller.
The source appends only the index `idx`; we keep the whole entry and project
the index afterwards (see `pareto_2d_min`). -/
def pareto_scan : List (ℕ × ℚ × ℚ) → Option ℚ → List (ℕ × ℚ × ℚ)
  | [], _ => []
  | p :: rest, best =>
    if ltBest p.2.2 best then p :: pareto_scan rest (Option.some p.2.2)
    else pareto_scan rest best

/-- Embedding of `pareto_2d_min(loads, costs)`: enumerate `zip(loads, costs)`,
sort by `(load, cost)` with the stable `insertionSort` under `paretoLe`,
scan with a running minimum cost, return the retained indices. -/
def pareto_2d_min (loads costs : List ℚ) : List ℕ :=
  (pareto_scan (List.insertionSort paretoLe ((loads.zip costs).enum))
    Option.none).map (fun p => p.1)

/-! ## Embedding of `load_antichain` (lines 34-51), after the `yaml`/`eval`
stage: the input is the list of parsed numeric tuples (`list(antichain)`),
a tuple being a `List ℚ`.  `Option.none` models a raised exception. -/

/-- Sort key of `load_antichain`: `(float(p[1]), float(p[0]), float(p[2]) if
len(p) > 2 else 0.0)`, i.e. (load, cost, time-or-0). -/
def laKey (p : List ℚ) : ℚ × ℚ × ℚ :=
  (p.getD 1 0, p.getD 0 0, if 2 < p.length then p.getD 2 0 else 0)

/-- Lexicographic order on (load, cost, time) triples, as the spec words it:
"sorted by (load, cost, time)". -/
def tripleLe (a b : ℚ × ℚ × ℚ) : Prop :=
  a.1 < b.1 ∨ (a.1 = b.1 ∧ (a.2.1 < b.2.1 ∨ (a.2.1 = b.2.1 ∧ a.2.2 ≤ b.2.2)))

instance (a b : ℚ × ℚ × ℚ) : Decidable (tripleLe a b) := by
  unfold tripleLe
  infer_instance

/-- Totality of the lexicographic triple order. -/
theorem tripleLe_total (a b : ℚ × ℚ × ℚ) : tripleLe a b ∨ tripleLe b a := by
  unfold tripleLe
  rcases lt_trichotomy a.1 b.1 with h | h | h
  · exact Or.inl (Or.inl h)
  · rcases lt_trichotomy a.2.1 b.2.1 with h2 | h2 | h2
    · exact Or.inl (Or.inr ⟨h, Or.inl h2⟩)
    · rcases le_total a.2.2 b.2.2 with h3 | h3
      · exact Or.inl (Or.inr ⟨h, Or.inr ⟨h2, h3⟩⟩)
      · exact Or.inr (Or.inr ⟨h.symm, Or.inr ⟨h2.symm, h3⟩⟩)
    · exact Or.inr (Or.inr ⟨h.symm, Or.inl h2⟩)
  · exact Or.inr (Or.inl h)

/-- Transitivity of the lexicographic triple order. -/
theorem tripleLe_trans {a b c : ℚ × ℚ × ℚ} (hab : tripleLe a b)
    (hbc : tripleLe b c) : tripleLe a c := by
  unfold tripleLe at *
  rcases hab with h | ⟨e, h⟩ <;> rcases hbc with h2 | ⟨e2, h2⟩
  · exact Or.inl (h.trans h2)
  · exact Or.inl (lt_of_lt_of_le h (le_of_eq e2))
  · exact Or.inl (lt_of_le_of_lt (le_of_eq e) h2)
  · refine Or.inr ⟨e.trans e2, ?_⟩
    rcases h with h | ⟨e3, h⟩ <;> rcases h2 with h2 | ⟨e4, h2⟩
    · exact Or.inl (h.trans h2)
    · exact Or.inl (lt_of_lt_of_le h (le_of_eq e4))
    · exact Or.inl (lt_of_le_of_lt (le_of_eq e3) h2)
    · exact Or.inr ⟨e3.trans e4, h.trans h2⟩

/-- Comparison used for the `pts.sort(key=...)` call of `load_antichain`. -/
def laLe (p q : List ℚ) : Prop :=
  tripleLe (laKey p) (laKey q)

instance (p q : List ℚ) : Decidable (laLe p q) := by
  unfold laLe
  infer_instance

instance : IsTotal (List ℚ) laLe := ⟨fun _ _ => tripleLe_total _ _⟩

instance : IsTrans (List ℚ) laLe := ⟨fun _ _ _ => tripleLe_trans⟩

/-- Embedding of `load_antichain` after parsing: empty input short-circuits to
three empty lists; a tuple with fewer than two components makes the sort key
(or the `loads`/`costs` comprehensions) raise IndexError (`Option.none`); the
`times` comprehension reads `p[2]` from every tuple iff the FIRST sorted tuple
has at least three components (`len(pts[0]) >= 3`), raising IndexError on any
short tuple, and otherwise yields all zeros. -/
def load_antichain (pts : List (List ℚ)) : Option (List ℚ × List ℚ × List ℚ) :=
  if pts.isEmpty then Option.some ([], [], [])
  else if pts.any (fun p => p.length < 2) then Option.none
  else
    let sorted := List.insertionSort laLe pts
    let loads := sorted.map (fun p => p.getD 1 0)
    let costs := sorted.map (fun p => p.getD 0 0)
    if 3 ≤ (sorted.headD []).length then
      match sorted.mapM (fun p => p[2]?) with
      | Option.none => Option.none
      | Option.some times => Option.some (loads, costs, times)
    else Option.some (loads, costs, sorted.map (fun _ => (0 : ℚ)))

/-! ## Embedding of `shade_dominated_region` (lines 72-96) -/

/-- Sort used on the frontier inside `shade_dominated_region`
(`sorted(..., key=lambda p: p[0])`). -/
def loadLe (p q : ℚ × ℚ) : Prop :=
  p.1 ≤ q.1

instance (p q : ℚ × ℚ) : Decidable (loadLe p q) := by
  unfold loadLe
  infer_instance

instance : IsTotal (ℚ × ℚ) loadLe := ⟨fun p q => le_total p.1 q.1⟩

instance : IsTrans (ℚ × ℚ) loadLe := ⟨fun _ _ _ => le_trans⟩

/-- Embedding of `shade_dominated_region`: returns the `(poly_x, poly_y)`
vertex lists handed to `ax.fill`, or `Option.none` when nothing is drawn
(empty `frontier_loads`, or the `fx[0]` IndexError on an empty zip). -/
def shade_dominated_region (frontier_loads frontier_costs : List ℚ)
    (x_max y_max : ℚ) : Option (List ℚ × List ℚ) :=
  if frontier_loads.isEmpty then Option.none
  else
    match List.insertionSort loadLe (frontier_loads.zip frontier_costs) with
    | [] => Option.none
    | f :: rest =>
      let fx := (f :: rest).map (fun p => p.1)
      let fy := (f :: rest).map (fun p => p.2)
      Option.some (f.1 :: (fx ++ [x_max]), y_max :: (fy ++ [y_max]))

/-! ## Embedding of `main` (lines 119-226), data-flow and error outcomes -/

/-- Label subsampling of `main` (lines 168-175): all indices when `n <=
label_max`, else `range(0, n, step)` with `step = max(1, n // label_max)`;
`range(0, n, step)` has `⌈n / step⌉` elements. -/
def labelIdxs (n labelMax : ℕ) : List ℕ :=
  if n ≤ labelMax then List.range n
  else
    let step := max 1 (n / labelMax)
    List.range' 0 ((n + step - 1) / step) step

/-- Python `max` of a list, defaulting to 0 on the empty list (where the
source would raise; `main` only applies it to non-empty lists). -/
def pyMax (l : List ℚ) : ℚ :=
  match l with
  | [] => 0
  | x :: xs => xs.foldl max x

/-- Python `zip(loads, costs, times)` (truncating to the shortest list). -/
def zip3 (loads costs times : List ℚ) : List (ℚ × ℚ × ℚ) :=
  loads.zip (costs.zip times)

/-- The time-ceiling filter of `main`: keep triples with `t <= time_max`. -/
def filterTime (pts : List (ℚ × ℚ × ℚ)) (tmax : ℚ) : List (ℚ × ℚ × ℚ) :=
  pts.filter (fun p => decide (p.2.2 ≤ tmax))

/-- Decidable equality for `Except` results (not provided by the core
library), used to evaluate the embedded `main` at concrete inputs. -/
instance {e a : Type} [DecidableEq e] [DecidableEq a] : DecidableEq (Except e a) := by
  intro x y
  cases x <;> cases y
  case error.error v w =>
    exact if h : v = w then Decidable.isTrue (by rw [h])
      else Decidable.isFalse (fun hc => h (Except.error.inj hc))
  case ok.ok v w =>
    exact if h : v = w then Decidable.isTrue (by rw [h])
      else Decidable.isFalse (fun hc => h (Except.ok.inj hc))
  case error.ok v w => exact Decidable.isFalse (fun hc => Except.noConfusion hc)
  case ok.error v w => exact Decidable.isFalse (fun hc => Except.noConfusion hc)

/-- The three fatal error conditions `main` can raise. -/
inductive PlotError where
  | emptyAntichain : PlotError
  | emptyAfterFilter : ℚ → PlotError
  | sliceNeedsTimeMax : PlotError
deriving DecidableEq, Repr

/-- The data `main` draws into the saved image: the retained points, the
annotation indices, the axis limits and the optional shading polygon. -/
structure PlotOutput where
  loads : List ℚ
  costs : List ℚ
  times : List ℚ
  labels : List ℕ
  xRight : ℚ
  yTop : ℚ
  shadePoly : Option (List ℚ × List ℚ)
deriving DecidableEq, Repr

/-- The part of `main` after the two empty-result checks: label subsampling,
axis limits (`max * 1.05`), and the shading block with its `slice`
configuration check (lines 201-204). -/
def mainRest (loads costs times : List ℚ) (timeMax : Option ℚ) (shade : String)
    (labelMax : ℕ) : Except PlotError PlotOutput :=
  let idxs := labelIdxs loads.length labelMax
  let xRight := pyMax loads * (21 / 20)
  let yTop := pyMax costs * (21 / 20)
  if shade = ("none" : String) then
    Except.ok ⟨loads, costs, times, idxs, xRight, yTop, Option.none⟩
  else if shade = ("slice" : String) ∧ timeMax = Option.none then
    Except.error PlotError.sliceNeedsTimeMax
  else
    let front := pareto_2d_min loads costs
    let fLoads := front.map (fun i => loads.getD i 0)
    let fCosts := front.map (fun i => costs.getD i 0)
    Except.ok ⟨loads, costs, times, idxs, xRight, yTop,
      shade_dominated_region fLoads fCosts xRight yTop⟩

/-- The optional time-slice stage of `main` (lines 133-139): with a ceiling,
filter and raise (with the threshold) if nothing remains, else continue into
the plotting data flow (`mainRest`). -/
def mainFiltered (loads costs times : List ℚ) (shade : String) (labelMax : ℕ) :
    Option ℚ → Except PlotError PlotOutput
  | Option.none => mainRest loads costs times Option.none shade labelMax
  | Option.some t =>
    let filtered := filterTime (zip3 loads costs times) t
    if filtered.isEmpty then Except.error (PlotError.emptyAfterFilter t)
    else
      mainRest (filtered.map (fun p => p.1)) (filtered.map (fun p => p.2.1))
        (filtered.map (fun p => p.2.2)) (Option.some t) shade labelMax

/-- Embedding of `main` from the `load_antichain` result on: raise on an empty
antichain (lines 127-130), then the optional filter stage and the rest. -/
def mainRun (loads costs times : List ℚ) (timeMax : Option ℚ) (shade : String)
    (labelMax : ℕ) : Except PlotError PlotOutput :=
  if loads.isEmpty then Except.error PlotError.emptyAntichain
  else mainFiltered loads costs times shade labelMax timeMax

/-! ## Model of the `eval` call of `load_antichain` (line 39).  The source
runs `eval(raw, {"Decimal": Decimal, "frozenset": frozenset}, {})` on the
textual `minimals` payload.  Per the documented semantics of CPython's
`eval`, a globals dictionary that lacks a `"__builtins__"` key has a
reference to the real `builtins` module inserted before evaluation, so every
builtin (`abs`, `__import__`, ...) is reachable from the evaluated
expression.  We embed a fragment of Python's expression language and of its
evaluation large enough to exhibit this: values, an environment containing
`Decimal`, `frozenset` and (through the auto-inserted builtins) `abs` as a
representative builtin, and an evaluator. -/

/-- Python values arising here: numbers, tuples, (frozen)sets and callables
(named builtins/constructors). -/
inductive PyVal where
  | num : ℚ → PyVal
  | tup : List PyVal → PyVal
  | setv : List PyVal → PyVal
  | callable : String → PyVal

/-- A fragment of Python expressions: numeric literals, tuple and set
displays, name lookups and calls. -/
inductive PyExpr where
  | numLit : ℚ → PyExpr
  | tupleLit : List PyExpr → PyExpr
  | setLit : List PyExpr → PyExpr
  | name : String → PyExpr
  | call : PyExpr → List PyExpr → PyExpr

/-- Lookup in the builtins module, auto-inserted by CPython because the
globals dict passed to `eval` has no `"__builtins__"` entry; `abs` stands in
for the full builtins namespace. -/
def builtinsLookup : String → Option PyVal
  | "abs" => Option.some (PyVal.callable ("abs"))
  | _ => Option.none

/-- Name resolution for the `eval` call: the two entries of the globals dict
passed in the source, then the auto-inserted builtins. -/
def lookupName : String → Option PyVal
  | "Decimal" => Option.some (PyVal.callable ("Decimal"))
  | "frozenset" => Option.some (PyVal.callable ("frozenset"))
  | s => builtinsLookup s

/-- Application of the callables reachable from the `eval` environment. -/
def applyCallable : PyVal → List PyVal → Option PyVal
  | PyVal.callable ("Decimal"), [PyVal.num q] => Option.some (PyVal.num q)
  | PyVal.callable ("frozenset"), [PyVal.setv vs] => Option.some (PyVal.setv vs)
  | PyVal.callable ("frozenset"), [PyVal.tup vs] => Option.some (PyVal.setv vs)
  | PyVal.callable ("abs"), [PyVal.num q] => Option.some (PyVal.num |q|)
  | _, _ => Option.none

mutual

/-- Evaluation of the embedded expression fragment, as Python's `eval`
performs it under the environment of `load_antichain`'s call. -/
def evalPy : PyExpr → Option PyVal
  | PyExpr.numLit q => Option.some (PyVal.num q)
  | PyExpr.tupleLit es => (evalPyList es).map PyVal.tup
  | PyExpr.setLit es => (evalPyList es).map PyVal.setv
  | PyExpr.name s => lookupName s
  | PyExpr.call f args =>
    match evalPy f with
    | Option.none => Option.none
    | Option.some fv =>
      match evalPyList args with
      | Option.none => Option.none
      | Option.some avs => applyCallable fv avs

/-- Evaluation of a list of argument/element expressions, left to right. -/
def evalPyList : List PyExpr → Option (List PyVal)
  | [] => Option.some []
  | e :: es =>
    match evalPy e with
    | Option.none => Option.none
    | Option.some v =>
      match evalPyList es with
      | Option.none => Option.none
      | Option.some vs => Option.some (v :: vs)

end

mutual

/-- The grammar the specification permits for the `minimals` payload:
numeric literals (including `Decimal` ones) and tuple/set (`frozenset`)
construction only. -/
def inSafeGrammar : PyExpr → Bool
  | PyExpr.numLit _ => true
  | PyExpr.tupleLit es => allSafe es
  | PyExpr.setLit es => allSafe es
  | PyExpr.call (PyExpr.name ("Decimal")) [e] => inSafeGrammar e
  | PyExpr.call (PyExpr.name ("frozenset")) [e] => inSafeGrammar e
  | _ => false

/-- All expressions of a list lie in the safe grammar. -/
def allSafe : List PyExpr → Bool
  | [] => true
  | e :: es => inSafeGrammar e && allSafe es

end

/-! ## Fill semantics for the shading polygon.  `shade_dominated_region`
hands its `(poly_x, poly_y)` vertex lists to `ax.fill`; the region a fill
paints is modelled mathematically by the standard even-odd (ray-casting)
rule: a point is inside when a horizontal ray from it crosses an odd number
of polygon edges. -/

/-- The edge from `a` to `b` is crossed by the rightward horizontal ray from
`p` (standard ray-casting test: the endpoints straddle the ray's height and
the edge's intersection with that height lies strictly to the right). -/
def crossing (p a b : ℚ × ℚ) : Bool :=
  (decide (p.2 < a.2) != decide (p.2 < b.2)) &&
    decide (p.1 < a.1 + (p.2 - a.2) * (b.1 - a.1) / (b.2 - a.2))

/-- The closed edge cycle of a polygon given by its vertex list. -/
def polyEdges (vs : List (ℚ × ℚ)) : List ((ℚ × ℚ) × (ℚ × ℚ)) :=
  match vs with
  | [] => []
  | v :: rest => (v :: rest).zip (rest ++ [v])

/-- Even-odd membership of a point in the polygon described by the two
coordinate lists passed to `ax.fill`. -/
def polyContains (polyX polyY : List ℚ) (p : ℚ × ℚ) : Bool :=
  decide ((polyEdges (polyX.zip polyY)).countP
    (fun e => crossing p e.1 e.2) % 2 = 1)

/-- A point is covered by the shading drawn for the given frontier and plot
bounds. -/
def coveredByShade (fl fc : List ℚ) (xm ym : ℚ) (p : ℚ × ℚ) : Bool :=
  match shade_dominated_region fl fc xm ym with
  | Option.none => false
  | Option.some (px, py) => polyContains px py p

/-- The claim's region: in-bounds points weakly dominated by some frontier
point (above and to the right of the staircase). -/
def dominatedInBounds (frontier : List (ℚ × ℚ)) (xm ym : ℚ) (p : ℚ × ℚ) : Prop :=
  p.1 ≤ xm ∧ p.2 ≤ ym ∧ ∃ q ∈ frontier, q.1 ≤ p.1 ∧ q.2 ≤ p.2

/-! ## Embedding of `gen_catalogues.py`.  The random draws (`random.choice`
from the bin tables, `random.randint` noise) are abstracted as explicitly
passed values, universally quantified in the theorems; each row formula is
translated literally from the source. -/

/-- One aircraft row (gen_catalogues.py, lines 42-63): `(area, cost, load,
time)` with the cost/load formulas and their floors. -/
def aircraft_row (area time nc nl : ℤ) : ℤ × ℤ × ℤ × ℤ :=
  let cost := 150000 + area * 25000 + max 0 (22 - time) * 40000 + nc
  let load := 1200 + area * 55 + max 0 (22 - time) * 95 + nl
  (area, max cost 120000, max load 500, time)

/-- The two fixed aircraft anchor rows. -/
def aircraft_anchors : List (ℤ × ℤ × ℤ × ℤ) :=
  [(10, 250000, 1500, 30), (50, 2000000, 7000, 6)]

/-- All aircraft rows: the sampled rows followed by the anchors. -/
def gen_aircraft_rows (draws : List (ℤ × ℤ × ℤ × ℤ)) : List (ℤ × ℤ × ℤ × ℤ) :=
  draws.map (fun d => aircraft_row d.1 d.2.1 d.2.2.1 d.2.2.2) ++ aircraft_anchors

/-- One ground-crew row (lines 104-116): `(area, cost, time)` with the cost
formula and its floor. -/
def crews_row (area time nc : ℤ) : ℤ × ℤ × ℤ :=
  let cost := 80000 + area * 6500 + max 0 (45 - time) * 8000 + nc
  (area, max cost 60000, time)

/-- The two fixed ground-crew anchor rows. -/
def crews_anchors : List (ℤ × ℤ × ℤ) :=
  [(20, 150000, 60), (120, 1050000, 10)]

/-- All ground-crew rows: the sampled rows followed by the anchors. -/
def gen_crews_rows (draws : List (ℤ × ℤ × ℤ)) : List (ℤ × ℤ × ℤ) :=
  draws.map (fun d => crews_row d.1 d.2.1 d.2.2) ++ crews_anchors

/-- One retardant row (lines 150-156): `(load, cost)` with the cost formula
and its floor. -/
def retardant_row (load nc : ℤ) : ℤ × ℤ :=
  let cost := 20000 + load * 18 + nc
  (load, max cost 10000)

/-- The two fixed retardant anchor rows. -/
def retardant_anchors : List (ℤ × ℤ) :=
  [(2000, 50000), (6000, 50000)]

/-- All retardant rows: the sampled rows followed by the anchors. -/
def gen_retardant_rows (draws : List (ℤ × ℤ)) : List (ℤ × ℤ) :=
  draws.map (fun d => retardant_row d.1 d.2) ++ retardant_anchors

/-! ## The specification's frontier procedure (for the refinement claim C1),
written from the spec's words rather than the source. -/

/-- Modelled from the spec: "sort points ascending by load, then by cost" —
the comparison on (load, cost) points the spec's procedure sorts with,
lifted to enumerated points by comparing the point parts. -/
def specLe (a b : ℕ × ℚ × ℚ) : Prop :=
  a.2.1 < b.2.1 ∨ (a.2.1 = b.2.1 ∧ a.2.2 ≤ b.2.2)

instance (a b : ℕ × ℚ × ℚ) : Decidable (specLe a b) := by
  unfold specLe
  infer_instance

/-- Modelled from the spec: "scan in order, keeping a running minimum cost
seen so far; a point joins the frontier iff its cost is strictly less than
the running minimum"; the running minimum lives in `WithTop ℚ`, starting at
`⊤`. -/
def specScan : List (ℕ × ℚ × ℚ) → WithTop ℚ → List ℕ
  | [], _ => []
  | p :: rest, m =>
    if (p.2.2 : WithTop ℚ) < m then p.1 :: specScan rest (p.2.2 : WithTop ℚ)
    else specScan rest m

/-- Modelled from the spec: the whole selection procedure of the claim, on a
list of (load, cost) points, returning the selected indices. -/
def specFrontier (points : List (ℚ × ℚ)) : List ℕ :=
  specScan (List.insertionSort specLe (points.enum)) ⊤

/-- The two scans agree: `Option ℚ` with `none` as infinity versus
`WithTop ℚ` with `⊤`. -/
theorem specScan_eq_scan (l : List (ℕ × ℚ × ℚ)) :
    ∀ best : Option ℚ,
      specScan l (match best with
        | Option.none => (⊤ : WithTop ℚ)
        | Option.some b => (b : WithTop ℚ))
      = (pareto_scan l best).map (fun p => p.1) := by
  induction l with
  | nil => intro best; cases best <;> rfl
  | cons p rest ih =>
    intro best
    cases best with
    | none =>
      have h : ((p.2.2 : WithTop ℚ) < (⊤ : WithTop ℚ)) := WithTop.coe_lt_top _
      simp only [specScan, pareto_scan, ltBest, if_pos h, if_true]
      exact congrArg (p.1 :: ·) (ih (Option.some p.2.2))
    | some b =>
      by_cases h : p.2.2 < b
      · have h2 : ((p.2.2 : WithTop ℚ) < (b : WithTop ℚ)) := WithTop.coe_lt_coe.2 h
        simp only [specScan, pareto_scan, ltBest, if_pos h2, decide_eq_true h, if_true]
        exact congrArg (p.1 :: ·) (ih (Option.some p.2.2))
      · have h2 : ¬((p.2.2 : WithTop ℚ) < (b : WithTop ℚ)) := fun hc => h (WithTop.coe_lt_coe.1 hc)
        simp only [specScan, pareto_scan, ltBest, if_neg h2, decide_eq_false h, if_false]
        exact ih (Option.some b)

/-- C1: `pareto_2d_min` returns exactly the indices selected by the spec's
procedure (sort the points ascending by load then cost, scan keeping a
running minimum of cost, keep a point iff its cost is strictly less than the
running minimum); and for the input points (1,5), (1,3), (2,4), (3,1) the
returned frontier is exactly the points (1,3) and (3,1). -/
theorem c1_pareto_procedure :
    (∀ loads costs : List ℚ,
      pareto_2d_min loads costs = specFrontier (loads.zip costs)) ∧
    pareto_2d_min [1, 1, 2, 3] [5, 3, 4, 1] = [1, 3] ∧
    (pareto_2d_min [1, 1, 2, 3] [5, 3, 4, 1]).map
      (fun i => (([1, 1, 2, 3] : List ℚ).getD i 0, ([5, 3, 4, 1] : List ℚ).getD i 0))
      = [(1, 3), (3, 1)] := by
  refine ⟨fun loads costs => ?_, by decide, by decide⟩
  unfold pareto_2d_min specFrontier
  exact (specScan_eq_scan
    (List.insertionSort specLe ((loads.zip costs).enum)) Option.none).symm

/-- C7: the label-cap claim fails on the code: with 3 retained points and
label cap 2 the subsample is `range(0, 3, 1)`, i.e. all 3 indices, and 3
annotations are drawn — more than the cap of 2. -/
theorem c7_label_cap_exceeded :
    labelIdxs 3 2 = [0, 1, 2] ∧ (labelIdxs 3 2).length = 3 ∧
      ¬((labelIdxs 3 2).length ≤ 2) := by
  decide

/-- C9: every row emitted by the catalogue generator, anchors included, has
each floored resource value at or above the declared floor: aircraft cost ≥
120000 and load ≥ 500, ground-crew cost ≥ 60000, retardant cost ≥ 10000 —
whatever values the random draws took. -/
theorem c9_catalogue_floors (dA : List (ℤ × ℤ × ℤ × ℤ)) (dC : List (ℤ × ℤ × ℤ))
    (dR : List (ℤ × ℤ)) :
    (∀ r ∈ gen_aircraft_rows dA, 120000 ≤ r.2.1 ∧ 500 ≤ r.2.2.1) ∧
    (∀ r ∈ gen_crews_rows dC, 60000 ≤ r.2.1) ∧
    (∀ r ∈ gen_retardant_rows dR, 10000 ≤ r.2) := by
  refine ⟨?_, ?_, ?_⟩ <;> intro r hr
  · rcases List.mem_append.1 hr with h | h
    · obtain ⟨d, _, rfl⟩ := List.mem_map.1 h
      exact ⟨le_max_right _ _, le_max_right _ _⟩
    · simp only [aircraft_anchors, List.mem_cons, List.not_mem_nil, or_false] at h
      rcases h with rfl | rfl
      · exact ⟨by norm_num, by norm_num⟩
      · exact ⟨by norm_num, by norm_num⟩
  · rcases List.mem_append.1 hr with h | h
    · obtain ⟨d, _, rfl⟩ := List.mem_map.1 h
      exact le_max_right _ _
    · simp only [crews_anchors, List.mem_cons, List.not_mem_nil, or_false] at h
      rcases h with rfl | rfl
      · norm_num
      · norm_num
  · rcases List.mem_append.1 hr with h | h
    · obtain ⟨d, _, rfl⟩ := List.mem_map.1 h
      exact le_max_right _ _
    · simp only [retardant_anchors, List.mem_cons, List.not_mem_nil, or_false] at h
      rcases h with rfl | rfl
      · norm_num
      · norm_num

/-- Witness for C9: the first aircraft anchor row satisfies its floors. -/
theorem c9_witness :
    120000 ≤ ((10 : ℤ), (250000 : ℤ), (1500 : ℤ), (30 : ℤ)).2.1 ∧
      500 ≤ ((10 : ℤ), (250000 : ℤ), (1500 : ℤ), (30 : ℤ)).2.2.1 :=
  (c9_catalogue_floors [] [] []).1 (10, 250000, 1500, 30) (by decide)

/-- C3: the code is wrong where the claim (and the spec's design note) demand
a safe literal parser: `eval` is called with a globals dict lacking
`__builtins__`, so CPython auto-inserts the real builtins module and
expressions far outside the numeric/tuple grammar evaluate successfully
instead of failing — here `abs(-3)`, which the grammar rejects, evaluates
to 3 (and e.g. `__import__` is reachable the same way). -/
theorem c3_eval_executes_nonliteral :
    inSafeGrammar (PyExpr.call (PyExpr.name ("abs")) [PyExpr.numLit (-3)]) = false ∧
    evalPy (PyExpr.call (PyExpr.name ("abs")) [PyExpr.numLit (-3)]) =
      Option.some (PyVal.num 3) := by
  constructor
  · rfl
  · show Option.some (PyVal.num |(-3 : ℚ)|) = Option.some (PyVal.num 3)
    norm_num

/-- C2 counterexample: on the mixed-length parsed set {(1,2), (3,4,5)} the
first sorted tuple has only two components, so the code emits times [0, 0],
while the claim's per-tuple reading ("time defaulting to 0 otherwise")
demands time 5 for the three-component tuple (3,4,5). -/
theorem c2_counterexample :
    load_antichain [[1, 2], [3, 4, 5]] = Option.some ([2, 4], [1, 3], [0, 0]) ∧
    load_antichain [[1, 2], [3, 4, 5]] ≠ Option.some ([2, 4], [1, 3], [0, 5]) := by
  decide

/-- C5 counterexample: a run with shading mode "slice" and no time ceiling on
an empty antichain raises the empty-result error, not the
invalid-configuration error the claim promises for every such run. -/
theorem c5_counterexample :
    mainRun [] [] [] Option.none ("slice") 25 = Except.error PlotError.emptyAntichain ∧
    mainRun [] [] [] Option.none ("slice") 25 ≠ Except.error PlotError.sliceNeedsTimeMax := by
  decide

/-- The post-filter part of `main` errors exactly for the `slice`-without-
threshold configuration, and then with that very error. -/
theorem mainRest_error_iff (loads costs times : List ℚ) (tm : Option ℚ)
    (sh : String) (lm : ℕ) (e : PlotError) :
    mainRest loads costs times tm sh lm = Except.error e ↔
      (e = PlotError.sliceNeedsTimeMax ∧ sh = ("slice" : String) ∧
        tm = Option.none) := by
  unfold mainRest
  split_ifs with h1 h2
  · constructor
    · intro h
      exact absurd h (by simp)
    · rintro ⟨-, h2, -⟩
      rw [h1] at h2
      exact absurd h2 (by decide)
  · constructor
    · intro h
      exact ⟨(Except.error.inj h).symm, h2.1, h2.2⟩
    · rintro ⟨he, -, -⟩
      rw [he]
  · constructor
    · intro h
      exact absurd h (by simp)
    · rintro ⟨-, h3, h4⟩
      exact absurd ⟨h3, h4⟩ h2

/-- C5 (amended): the invalid-configuration error is raised exactly for runs
with shading mode "slice", no time ceiling, and a non-empty loaded point set
(on an empty set the empty-result error preempts it); in particular it is
never raised when a ceiling is supplied or another shading mode is chosen,
and when raised no output value is produced. -/
theorem c5_slice_error_iff (loads costs times : List ℚ) (tm : Option ℚ)
    (sh : String) (lm : ℕ) :
    mainRun loads costs times tm sh lm = Except.error PlotError.sliceNeedsTimeMax ↔
      (sh = ("slice" : String) ∧ tm = Option.none ∧ loads ≠ []) := by
  unfold mainRun
  by_cases hl : loads.isEmpty
  · rw [if_pos hl]
    constructor
    · intro h
      exact absurd (Except.error.inj h) (by decide)
    · rintro ⟨-, -, hne⟩
      exact absurd (List.isEmpty_iff.1 hl) hne
  · rw [if_neg hl]
    have hne : loads ≠ [] := fun h => hl (by rw [h]; rfl)
    cases tm with
    | none =>
      rw [mainFiltered, mainRest_error_iff]
      constructor
      · rintro ⟨-, h2, -⟩
        exact ⟨h2, rfl, hne⟩
      · rintro ⟨h2, -, -⟩
        exact ⟨rfl, h2, rfl⟩
    | some t =>
      rw [mainFiltered]
      by_cases hf : (filterTime (zip3 loads costs times) t).isEmpty
      · rw [if_pos hf]
        constructor
        · intro h
          exact absurd (Except.error.inj h) (by simp)
        · rintro ⟨-, h3, -⟩
          exact absurd h3 (by simp)
      · rw [if_neg hf, mainRest_error_iff]
        constructor
        · rintro ⟨-, -, h3⟩
          exact absurd h3 (by simp)
        · rintro ⟨-, h3, -⟩
          exact absurd h3 (by simp)

/-- C4: the run ends in a reported empty-result error iff the point set is
empty after loading or becomes empty after the time-ceiling filter; the
filter error carries the very threshold that was supplied; and in either
case no output image is produced. -/
theorem c4_empty_result_errors (loads costs times : List ℚ) (tm : Option ℚ)
    (sh : String) (lm : ℕ) :
    (mainRun loads costs times tm sh lm = Except.error PlotError.emptyAntichain ↔
      loads = []) ∧
    (∀ t : ℚ,
      mainRun loads costs times tm sh lm =
          Except.error (PlotError.emptyAfterFilter t) ↔
        (loads ≠ [] ∧ tm = Option.some t ∧
          filterTime (zip3 loads costs times) t = [])) ∧
    ((loads = [] ∨
        ∃ t, tm = Option.some t ∧ filterTime (zip3 loads costs times) t = []) →
      ∀ out : PlotOutput, mainRun loads costs times tm sh lm ≠ Except.ok out) := by
  have key : ∀ e : PlotError,
      mainRun loads costs times tm sh lm = Except.error e →
        (loads = [] ∧ e = PlotError.emptyAntichain) ∨
        (loads ≠ [] ∧ ∃ t, tm = Option.some t ∧
          filterTime (zip3 loads costs times) t = [] ∧
          e = PlotError.emptyAfterFilter t) ∨
        e = PlotError.sliceNeedsTimeMax := by
    intro e h
    unfold mainRun at h
    by_cases hl : loads.isEmpty
    · rw [if_pos hl] at h
      exact Or.inl ⟨List.isEmpty_iff.1 hl, (Except.error.inj h).symm⟩
    · rw [if_neg hl] at h
      have hne : loads ≠ [] := fun hc => hl (by rw [hc]; rfl)
      cases tm with
      | none =>
        rw [mainFiltered] at h
        exact Or.inr (Or.inr ((mainRest_error_iff _ _ _ _ _ _ _).1 h).1)
      | some t =>
        rw [mainFiltered] at h
        by_cases hf : (filterTime (zip3 loads costs times) t).isEmpty
        · rw [if_pos hf] at h
          exact Or.inr (Or.inl ⟨hne, t, rfl, List.isEmpty_iff.1 hf,
            (Except.error.inj h).symm⟩)
        · rw [if_neg hf] at h
          exact Or.inr (Or.inr ((mainRest_error_iff _ _ _ _ _ _ _).1 h).1)
  have run1 : loads = [] →
      mainRun loads costs times tm sh lm = Except.error PlotError.emptyAntichain := by
    intro h
    unfold mainRun
    rw [if_pos (by rw [h]; rfl)]
  have run2 : ∀ t, loads ≠ [] → tm = Option.some t →
      filterTime (zip3 loads costs times) t = [] →
      mainRun loads costs times tm sh lm =
        Except.error (PlotError.emptyAfterFilter t) := by
    intro t hne htm hfe
    unfold mainRun
    rw [if_neg (fun hc => hne (List.isEmpty_iff.1 hc)), htm, mainFiltered]
    rw [if_pos (by rw [hfe]; rfl)]
  refine ⟨?_, ?_, ?_⟩
  · constructor
    · intro h
      rcases key _ h with ⟨h1, -⟩ | ⟨-, t, -, -, he⟩ | he
      · exact h1
      · exact absurd he (by simp)
      · exact absurd he (by simp)
    · exact run1
  · intro t
    constructor
    · intro h
      rcases key _ h with ⟨-, he⟩ | ⟨hne, t2, htm, hfe, he⟩ | he
      · exact absurd he (by simp)
      · rcases PlotError.emptyAfterFilter.inj he with rfl
        exact ⟨hne, htm, hfe⟩
      · exact absurd he (by simp)
    · rintro ⟨hne, htm, hfe⟩
      exact run2 t hne htm hfe
  · intro h out hc
    rcases h with h | ⟨t, htm, hfe⟩
    · rw [run1 h] at hc
      exact absurd hc (by simp)
    · by_cases hl : loads = []
      · rw [run1 hl] at hc
        exact absurd hc (by simp)
      · rw [run2 t hl htm hfe] at hc
        exact absurd hc (by simp)

/-- Witness for C4: the empty antichain yields no output image. -/
theorem c4_witness :
    mainRun [] [] [] Option.none ("none") 25 ≠
      Except.ok (PlotOutput.mk [] [] [] [] 0 0 Option.none) :=
  (c4_empty_result_errors [] [] [] Option.none ("none") 25).2.2 (Or.inl rfl)
    (PlotOutput.mk [] [] [] [] 0 0 Option.none)

/-- Reading the third component succeeds on every tuple of a list of
three-component tuples, and yields exactly the `getD 2 0` projections. -/
theorem mapM_get2 (l : List (List ℚ)) (h : ∀ p ∈ l, p.length = 3) :
    l.mapM (fun p => p[2]?) = Option.some (l.map (fun p => p.getD 2 0)) := by
  induction l with
  | nil => rfl
  | cons p rest ih =>
    have hp : 2 < p.length := by
      rw [h p (List.mem_cons_self _ _)]
      norm_num
    have h2 : p[2]? = Option.some (p.getD 2 0) := by
      rw [List.getElem?_eq_getElem hp, List.getD_eq_getElem?_getD,
        List.getElem?_eq_getElem hp]
      rfl
    have ih2 := ih (fun q hq => h q (List.mem_cons_of_mem _ hq))
    simp only [List.mapM_cons, h2, ih2, Option.pure_def, Option.bind_eq_bind,
      Option.some_bind, List.map_cons]

/-- C2 (amended): `load_antichain` returns the parsed points sorted
lexicographically by (load, cost, time) — a permutation of the input that is
`Pairwise laLe` — reading each tuple as (cost, load, time); the time is taken
from the third component when the first sorted tuple has at least three
components (as is the case when all tuples do), and ALL times default to 0
when it has fewer (as when all tuples are pairs); on the literal minimals set
{(100,50,10), (90,60,5), (80,40,20)} it returns loads [40,50,60], costs
[80,100,90], times [20,10,5]. -/
theorem c2_load_antichain_sorted :
    (∀ pts : List (List ℚ), (∀ p ∈ pts, p.length = 3) →
      ∃ sorted : List (List ℚ), sorted.Perm pts ∧ sorted.Pairwise laLe ∧
        load_antichain pts = Option.some
          (sorted.map (fun p => p.getD 1 0), sorted.map (fun p => p.getD 0 0),
            sorted.map (fun p => p.getD 2 0))) ∧
    (∀ pts : List (List ℚ), (∀ p ∈ pts, p.length = 2) →
      ∃ sorted : List (List ℚ), sorted.Perm pts ∧ sorted.Pairwise laLe ∧
        load_antichain pts = Option.some
          (sorted.map (fun p => p.getD 1 0), sorted.map (fun p => p.getD 0 0),
            sorted.map (fun _ => (0 : ℚ)))) ∧
    load_antichain [[100, 50, 10], [90, 60, 5], [80, 40, 20]] =
      Option.some ([40, 50, 60], [80, 100, 90], [20, 10, 5]) := by
  refine ⟨?_, ?_, by decide⟩
  · intro pts h
    refine ⟨List.insertionSort laLe pts, List.perm_insertionSort _ _,
      List.sorted_insertionSort _ _, ?_⟩
    unfold load_antichain
    by_cases he : pts.isEmpty
    · have hnil : pts = [] := List.isEmpty_iff.1 he
      subst hnil
      rfl
    · rw [if_neg he]
      have hany : pts.any (fun p => decide (p.length < 2)) = false := by
        rw [List.any_eq_false]
        intro p hp
        rw [decide_eq_true_eq, h p hp]
        norm_num
      rw [if_neg (by rw [hany]; exact Bool.false_ne_true)]
      have hsm : ∀ p ∈ List.insertionSort laLe pts, p.length = 3 :=
        fun p hp => h p ((List.mem_insertionSort _).1 hp)
      have hne : List.insertionSort laLe pts ≠ [] := by
        intro hc
        have hp2 := List.perm_insertionSort laLe pts
        rw [hc] at hp2
        exact he (List.isEmpty_iff.2 hp2.symm.eq_nil)
      have hhead : 3 ≤ ((List.insertionSort laLe pts).headD []).length := by
        rcases List.exists_cons_of_ne_nil hne with ⟨q, rest, hq⟩
        rw [hq, List.headD_cons, hsm q (by rw [hq]; exact List.mem_cons_self _ _)]
      rw [if_pos hhead, mapM_get2 _ hsm]
  · intro pts h
    refine ⟨List.insertionSort laLe pts, List.perm_insertionSort _ _,
      List.sorted_insertionSort _ _, ?_⟩
    unfold load_antichain
    by_cases he : pts.isEmpty
    · have hnil : pts = [] := List.isEmpty_iff.1 he
      subst hnil
      rfl
    · rw [if_neg he]
      have hany : pts.any (fun p => decide (p.length < 2)) = false := by
        rw [List.any_eq_false]
        intro p hp
        rw [decide_eq_true_eq, h p hp]
        norm_num
      rw [if_neg (by rw [hany]; exact Bool.false_ne_true)]
      have hsm : ∀ p ∈ List.insertionSort laLe pts, p.length = 2 :=
        fun p hp => h p ((List.mem_insertionSort _).1 hp)
      have hne : List.insertionSort laLe pts ≠ [] := by
        intro hc
        have hp2 := List.perm_insertionSort laLe pts
        rw [hc] at hp2
        exact he (List.isEmpty_iff.2 hp2.symm.eq_nil)
      have hhead : ¬(3 ≤ ((List.insertionSort laLe pts).headD []).length) := by
        rcases List.exists_cons_of_ne_nil hne with ⟨q, rest, hq⟩
        rw [hq, List.headD_cons, hsm q (by rw [hq]; exact List.mem_cons_self _ _)]
        norm_num
      rw [if_neg hhead]

/-- Witness for C2: the amended statement evaluated on the spec's literal
example set. -/
theorem c2_witness :
    ∃ sorted : List (List ℚ),
      sorted.Perm [[100, 50, 10], [90, 60, 5], [80, 40, 20]] ∧
      sorted.Pairwise laLe ∧
      load_antichain [[100, 50, 10], [90, 60, 5], [80, 40, 20]] = Option.some
        (sorted.map (fun p => p.getD 1 0), sorted.map (fun p => p.getD 0 0),
          sorted.map (fun p => p.getD 2 0)) :=
  c2_load_antichain_sorted.1 [[100, 50, 10], [90, 60, 5], [80, 40, 20]]
    (by decide)

/-! ## Structural facts about the `pareto_2d_min` scan, used for the
soundness (C10) and idempotence (C8) claims. -/

/-- The scan retains a sublist of its input. -/
theorem pareto_scan_sublist :
    ∀ (l : List (ℕ × ℚ × ℚ)) (best : Option ℚ), List.Sublist (pareto_scan l best) l := by
  intro l
  induction l with
  | nil => intro best; exact List.Sublist.refl _
  | cons p rest ih =>
    intro best
    rw [pareto_scan]
    by_cases hc : ltBest p.2.2 best = true
    · rw [if_pos hc]
      exact (ih (Option.some p.2.2)).cons₂ p
    · rw [if_neg hc]
      exact (ih best).cons p

/-- Every point the scan retains under a finite running minimum has cost
strictly below that minimum. -/
theorem pareto_scan_mem_lt :
    ∀ (l : List (ℕ × ℚ × ℚ)) (b : ℚ) (x : ℕ × ℚ × ℚ),
      x ∈ pareto_scan l (Option.some b) → x.2.2 < b := by
  intro l
  induction l with
  | nil => intro b x hx; cases hx
  | cons p rest ih =>
    intro b x hx
    rw [pareto_scan] at hx
    by_cases hc : p.2.2 < b
    · rw [if_pos (by rw [ltBest]; exact decide_eq_true hc)] at hx
      rcases List.mem_cons.1 hx with rfl | hx2
      · exact hc
      · exact (ih p.2.2 x hx2).trans hc
    · rw [if_neg (by rw [ltBest]; exact fun hd => hc (of_decide_eq_true hd))] at hx
      exact ih b x hx

/-- The retained points have strictly decreasing costs, in scan order. -/
theorem pareto_scan_pairwise :
    ∀ (l : List (ℕ × ℚ × ℚ)) (best : Option ℚ),
      (pareto_scan l best).Pairwise (fun a x => x.2.2 < a.2.2) := by
  intro l
  induction l with
  | nil => intro best; exact List.Pairwise.nil
  | cons p rest ih =>
    intro best
    rw [pareto_scan]
    by_cases hc : ltBest p.2.2 best = true
    · rw [if_pos hc]
      exact List.Pairwise.cons (fun y hy => pareto_scan_mem_lt rest p.2.2 y hy)
        (ih (Option.some p.2.2))
    · rw [if_neg hc]
      exact ih best

/-- Scanning a (load, cost)-sorted list, every input point is weakly
dominated by some retained point — unless the running minimum already
undercuts it (which cannot happen for the initial infinite minimum). -/
theorem pareto_scan_dom :
    ∀ (l : List (ℕ × ℚ × ℚ)) (best : Option ℚ), l.Pairwise paretoLe →
      ∀ x ∈ l,
        (∃ k ∈ pareto_scan l best, k.2.1 ≤ x.2.1 ∧ k.2.2 ≤ x.2.2) ∨
        (∃ b, best = Option.some b ∧ b ≤ x.2.2) := by
  intro l
  induction l with
  | nil => intro best _ x hx; cases hx
  | cons p rest ih =>
    intro best hpw x hx
    have hhead : ∀ y ∈ rest, paretoLe p y := fun y hy => List.rel_of_pairwise_cons hpw hy
    have htail : rest.Pairwise paretoLe := hpw.of_cons
    rw [pareto_scan]
    by_cases hc : ltBest p.2.2 best = true
    · rw [if_pos hc]
      rcases List.mem_cons.1 hx with hxp | hx2
      · exact Or.inl ⟨p, List.mem_cons_self _ _,
          le_of_eq (congrArg (fun y => y.2.1) hxp.symm),
          le_of_eq (congrArg (fun y => y.2.2) hxp.symm)⟩
      · rcases ih (Option.some p.2.2) htail x hx2 with ⟨k, hk, hkd⟩ | ⟨b, hb, hbx⟩
        · exact Or.inl ⟨k, List.mem_cons_of_mem _ hk, hkd⟩
        · refine Or.inl ⟨p, List.mem_cons_self _ _, ?_, ?_⟩
          · rcases hhead x hx2 with h | ⟨h, -⟩
            · exact le_of_lt h
            · exact le_of_eq h
          · exact le_trans (le_of_eq (Option.some.inj hb)) hbx
    · rw [if_neg hc]
      rcases best with - | b
      · exact absurd rfl hc
      · have hble : b ≤ p.2.2 := by
          rw [ltBest] at hc
          exact le_of_not_lt (fun hd => hc (decide_eq_true hd))
        rcases List.mem_cons.1 hx with hxp | hx2
        · exact Or.inr ⟨b, rfl, le_trans hble
            (le_of_eq (congrArg (fun y => y.2.2) hxp.symm))⟩
        · rcases ih (Option.some b) htail x hx2 with h | ⟨b2, hb2, hbx⟩
          · exact Or.inl h
          · exact Or.inr ⟨b2, hb2, hbx⟩

/-- C10: on a non-empty list of points, `pareto_2d_min` returns a non-empty
list of distinct valid indices, and every input point is weakly dominated
(in load and cost) by the point at some returned index. -/
theorem c10_pareto_sound (loads costs : List ℚ) (hne : loads ≠ [])
    (hlen : costs.length = loads.length) :
    pareto_2d_min loads costs ≠ [] ∧
    (pareto_2d_min loads costs).Nodup ∧
    (∀ i ∈ pareto_2d_min loads costs, i < loads.length) ∧
    (∀ j, j < loads.length → ∃ i ∈ pareto_2d_min loads costs,
      loads.getD i 0 ≤ loads.getD j 0 ∧ costs.getD i 0 ≤ costs.getD j 0) := by
  have hzlen : (loads.zip costs).length = loads.length := by
    rw [List.length_zip, hlen, min_self]
  have hperm := List.perm_insertionSort paretoLe ((loads.zip costs).enum)
  have hsorted : (List.insertionSort paretoLe ((loads.zip costs).enum)).Pairwise
      paretoLe := List.sorted_insertionSort paretoLe _
  have hS_mem : ∀ x ∈ List.insertionSort paretoLe ((loads.zip costs).enum),
      x ∈ (loads.zip costs).enum := fun x hx => hperm.subset hx
  have hmemS : ∀ x ∈ (loads.zip costs).enum,
      x ∈ List.insertionSort paretoLe ((loads.zip costs).enum) :=
    fun x hx => hperm.mem_iff.2 hx
  have hidx : ∀ x ∈ List.insertionSort paretoLe ((loads.zip costs).enum),
      x.1 < loads.length ∧ (loads.zip costs).getD x.1 (0, 0) = x.2 := by
    intro x hx
    have hxe := hS_mem x hx
    have hget := List.mem_enum_iff_getElem?.1 hxe
    have hlt : x.1 < (loads.zip costs).length := List.fst_lt_of_mem_enum hxe
    constructor
    · rw [hzlen] at hlt
      exact hlt
    · rw [List.getD_eq_getElem _ (0, 0) hlt, ← Option.some.inj
        ((List.getElem?_eq_getElem hlt).symm.trans hget)]
  refine ⟨?_, ?_, ?_, ?_⟩
  · have hSlen : (List.insertionSort paretoLe ((loads.zip costs).enum)).length =
        loads.length := by
      rw [hperm.length_eq, List.enum_length, hzlen]
    intro hc
    rcases hq : List.insertionSort paretoLe ((loads.zip costs).enum) with - | ⟨q, rest⟩
    · rw [hq] at hSlen
      exact hne (List.length_eq_zero.1 (hSlen.symm.trans List.length_nil))
    · rw [pareto_2d_min, hq, pareto_scan] at hc
      rw [if_pos (by rw [ltBest])] at hc
      exact List.noConfusion hc
  · have h1 : ((loads.zip costs).enum.map (fun p => p.1)).Nodup := by
      have := List.enum_map_fst (loads.zip costs)
      rw [show (fun p : ℕ × ℚ × ℚ => p.1) = Prod.fst from rfl, this]
      exact List.nodup_range _
    have h2 : ((List.insertionSort paretoLe ((loads.zip costs).enum)).map
        (fun p => p.1)).Nodup := ((hperm.map (fun p => p.1)).nodup_iff).2 h1
    rw [pareto_2d_min]
    exact List.Nodup.sublist
      (List.Sublist.map (fun p => p.1) (pareto_scan_sublist _ Option.none)) h2
  · intro i hi
    rcases List.mem_map.1 hi with ⟨x, hx, rfl⟩
    exact (hidx x ((pareto_scan_sublist _ Option.none).subset hx)).1
  · intro j hj
    have hjz : j < (loads.zip costs).length := by
      rw [hzlen]
      exact hj
    have hje : (j, (loads.zip costs)[j]) ∈ (loads.zip costs).enum :=
      List.mem_enum_iff_getElem?.2 (List.getElem?_eq_getElem hjz)
    have hjS := hmemS _ hje
    rcases pareto_scan_dom _ Option.none hsorted _ hjS with
      ⟨k, hk, hk1, hk2⟩ | ⟨b, hb, -⟩
    · have hkam := hidx k ((pareto_scan_sublist _ Option.none).subset hk)
      have hkL : k.1 < loads.length := hkam.1
      have hkC : k.1 < costs.length := by
        rw [hlen]
        exact hkL
      have hjC : j < costs.length := by
        rw [hlen]
        exact hj
      have hkzip : k.2 = (loads[k.1], costs[k.1]) := by
        rw [← hkam.2, List.getD_eq_getElem _ (0, 0) (by rw [hzlen]; exact hkL)]
        exact List.getElem_zip
      have hjzip : (loads.zip costs)[j] = (loads[j], costs[j]) :=
        List.getElem_zip
      refine ⟨k.1, List.mem_map.2 ⟨k, hk, rfl⟩, ?_, ?_⟩
      · rw [List.getD_eq_getElem _ 0 hkL, List.getD_eq_getElem _ 0 hj]
        have h5 := hk1
        rw [hkzip, hjzip] at h5
        exact h5
      · rw [List.getD_eq_getElem _ 0 hkC, List.getD_eq_getElem _ 0 hjC]
        have h5 := hk2
        rw [hkzip, hjzip] at h5
        exact h5
    · exact Option.noConfusion hb

/-- Witness for C10 on the points (1,2), (2,1): both returned indices are
valid and the frontier dominates every input point. -/
theorem c10_witness :
    pareto_2d_min [1, 2] [2, 1] ≠ [] ∧
    (pareto_2d_min [1, 2] [2, 1]).Nodup ∧
    (∀ i ∈ pareto_2d_min [1, 2] [2, 1], i < ([1, 2] : List ℚ).length) ∧
    (∀ j, j < ([1, 2] : List ℚ).length → ∃ i ∈ pareto_2d_min [1, 2] [2, 1],
      ([1, 2] : List ℚ).getD i 0 ≤ ([1, 2] : List ℚ).getD j 0 ∧
      ([2, 1] : List ℚ).getD i 0 ≤ ([2, 1] : List ℚ).getD j 0) :=
  c10_pareto_sound [1, 2] [2, 1] (by decide) (by decide)

/-- Enumerating preserves pairwise relations on the underlying elements. -/
theorem pairwise_enumFrom {α : Type} {R : α → α → Prop} :
    ∀ (l : List α) (n : ℕ), l.Pairwise R →
      (l.enumFrom n).Pairwise (fun a b => R a.2 b.2)
  | [], _, _ => List.Pairwise.nil
  | a :: rest, n, h => by
    rw [List.enumFrom_cons]
    refine List.Pairwise.cons ?_
      (pairwise_enumFrom rest (n + 1) (List.pairwise_cons.1 h).2)
    intro y hy
    exact (List.pairwise_cons.1 h).1 y.2 (List.snd_mem_of_mem_enumFrom hy)

/-- On a list whose costs strictly decrease, the scan retains everything
(whenever the initial running minimum lies above the first cost). -/
theorem pareto_scan_all :
    ∀ (l : List (ℕ × ℚ × ℚ)) (best : Option ℚ),
      l.Pairwise (fun a x => x.2.2 < a.2.2) →
      (∀ p rest2, l = p :: rest2 → ltBest p.2.2 best = true) →
      pareto_scan l best = l := by
  intro l
  induction l with
  | nil => intro best _ _; rfl
  | cons p rest ih =>
    intro best hpw hhd
    rw [pareto_scan, if_pos (hhd p rest rfl)]
    congr 1
    apply ih (Option.some p.2.2) (List.pairwise_cons.1 hpw).2
    intro q rest3 hq
    have hlt : q.2.2 < p.2.2 := (List.pairwise_cons.1 hpw).1 q
      (by rw [hq]; exact List.mem_cons_self _ _)
    rw [ltBest]
    exact decide_eq_true hlt

/-- A list of points with strictly increasing loads and strictly decreasing
costs is returned whole by `pareto_2d_min`: every index is selected. -/
theorem pareto_2d_min_of_sorted (pts : List (ℚ × ℚ))
    (hload : pts.Pairwise (fun p q => p.1 < q.1))
    (hcost : pts.Pairwise (fun p q => q.2 < p.2)) :
    pareto_2d_min (pts.map (fun p => p.1)) (pts.map (fun p => p.2)) =
      List.range pts.length := by
  have hzip : (pts.map (fun p => p.1)).zip (pts.map (fun p => p.2)) = pts := by
    rw [List.zip_map']
    simp only [Prod.mk.eta, List.map_id']
  rw [pareto_2d_min, hzip]
  have hsorted_enum : (pts.enum).Pairwise paretoLe :=
    (pairwise_enumFrom pts 0 hload).imp (fun h => Or.inl h)
  rw [List.Sorted.insertionSort_eq hsorted_enum]
  rw [pareto_scan_all (pts.enum) Option.none (pairwise_enumFrom pts 0 hcost)
    (fun p rest2 h => rfl)]
  exact List.enum_map_fst pts

/-- C8: frontier extraction is idempotent — applying `pareto_2d_min` to the
sublist of points it selected selects all of them again (indices
`[0, ..., k-1]`, the same point set unchanged). -/
theorem c8_pareto_idempotent (loads costs : List ℚ) :
    pareto_2d_min
      ((pareto_2d_min loads costs).map
        (fun i => ((loads.zip costs).getD i (0, 0)).1))
      ((pareto_2d_min loads costs).map
        (fun i => ((loads.zip costs).getD i (0, 0)).2)) =
    List.range (pareto_2d_min loads costs).length := by
  have hperm := List.perm_insertionSort paretoLe ((loads.zip costs).enum)
  have hsorted : (List.insertionSort paretoLe ((loads.zip costs).enum)).Pairwise
      paretoLe := List.sorted_insertionSort paretoLe _
  have hks := pareto_scan_sublist
    (List.insertionSort paretoLe ((loads.zip costs).enum)) Option.none
  have hkept_cost := pareto_scan_pairwise
    (List.insertionSort paretoLe ((loads.zip costs).enum)) Option.none
  have hkept_le : (pareto_scan
      (List.insertionSort paretoLe ((loads.zip costs).enum))
      Option.none).Pairwise paretoLe := hsorted.sublist hks
  have hkept_load : (pareto_scan
      (List.insertionSort paretoLe ((loads.zip costs).enum))
      Option.none).Pairwise (fun a b => a.2.1 < b.2.1) := by
    refine (hkept_le.and hkept_cost).imp ?_
    rintro a b ⟨hle, hgt⟩
    rcases hle with h | ⟨-, h2⟩
    · exact h
    · exact absurd (lt_of_le_of_lt h2 hgt) (lt_irrefl _)
  have hsel : (pareto_2d_min loads costs).map
      (fun i => (loads.zip costs).getD i (0, 0)) =
      (pareto_scan (List.insertionSort paretoLe ((loads.zip costs).enum))
        Option.none).map (fun k => k.2) := by
    rw [pareto_2d_min, List.map_map]
    apply List.map_congr_left
    intro k hk
    have hke : k ∈ (loads.zip costs).enum := hperm.subset (hks.subset hk)
    have hget := List.mem_enum_iff_getElem?.1 hke
    have hlt : k.1 < (loads.zip costs).length := List.fst_lt_of_mem_enum hke
    show (loads.zip costs).getD k.1 (0, 0) = k.2
    rw [List.getD_eq_getElem _ (0, 0) hlt]
    exact Option.some.inj ((List.getElem?_eq_getElem hlt).symm.trans hget)
  have hmm1 : (pareto_2d_min loads costs).map
      (fun i => ((loads.zip costs).getD i (0, 0)).1) =
      ((pareto_scan (List.insertionSort paretoLe ((loads.zip costs).enum))
        Option.none).map (fun k => k.2)).map (fun p => p.1) := by
    rw [← hsel, List.map_map]
    rfl
  have hmm2 : (pareto_2d_min loads costs).map
      (fun i => ((loads.zip costs).getD i (0, 0)).2) =
      ((pareto_scan (List.insertionSort paretoLe ((loads.zip costs).enum))
        Option.none).map (fun k => k.2)).map (fun p => p.2) := by
    rw [← hsel, List.map_map]
    rfl
  have hsel_load : ((pareto_scan
      (List.insertionSort paretoLe ((loads.zip costs).enum))
      Option.none).map (fun k => k.2)).Pairwise
      (fun p q : ℚ × ℚ => p.1 < q.1) :=
    hkept_load.map _ (fun a b h => h)
  have hsel_cost : ((pareto_scan
      (List.insertionSort paretoLe ((loads.zip costs).enum))
      Option.none).map (fun k => k.2)).Pairwise
      (fun p q : ℚ × ℚ => q.2 < p.2) :=
    hkept_cost.map _ (fun a b h => h)
  have hlen2 : ((pareto_scan
      (List.insertionSort paretoLe ((loads.zip costs).enum))
      Option.none).map (fun k => k.2)).length =
      (pareto_2d_min loads costs).length := by
    rw [pareto_2d_min, List.length_map, List.length_map]
  rw [hmm1, hmm2, pareto_2d_min_of_sorted _ hsel_load hsel_cost, hlen2]

/-- The even-odd fill of the single-point shading polygon (the triangle
with vertices (a,y_max), (a,b), (x_max,y_max)) contains exactly the points
between the diagonal and the top cap. -/
theorem shadeTriangle_covered_iff (a b xm ym : ℚ) (ha : a < xm) (hb : b < ym) :
    ∀ x y : ℚ, coveredByShade [a] [b] xm ym (x, y) = true ↔
      (b ≤ y ∧ y < ym ∧ a ≤ x ∧ (x - a) * (ym - b) < (y - b) * (xm - a)) := by
  intro x y
  show polyContains [a, a, xm] [ym, b, ym] (x, y) = true ↔ _
  rw [polyContains, decide_eq_true_eq]
  have hedges : polyEdges ([a, a, xm].zip [ym, b, ym]) =
      [((a, ym), (a, b)), ((a, b), (xm, ym)), ((xm, ym), (a, ym))] := rfl
  rw [hedges, List.countP_cons, List.countP_cons, List.countP_cons,
    List.countP_nil]
  have e3v : crossing (x, y) (xm, ym) (a, ym) = false := by
    show (((decide (y < ym)) != decide (y < ym)) &&
      decide (x < xm + (y - ym) * (a - xm) / (ym - ym))) = false
    rw [bne_self_eq_false, Bool.false_and]
  by_cases hyb : y < b <;> by_cases hym : y < ym
  · have e1v : crossing (x, y) (a, ym) (a, b) = false := by
      show (((decide (y < ym)) != decide (y < b)) &&
        decide (x < a + (y - ym) * (a - a) / (b - ym))) = false
      rw [decide_eq_true hym, decide_eq_true hyb, bne_self_eq_false,
        Bool.false_and]
    have e2v : crossing (x, y) (a, b) (xm, ym) = false := by
      show (((decide (y < b)) != decide (y < ym)) &&
        decide (x < a + (y - b) * (xm - a) / (ym - b))) = false
      rw [decide_eq_true hyb, decide_eq_true hym, bne_self_eq_false,
        Bool.false_and]
    simp only [e1v, e2v, e3v]
    exact iff_of_false (by decide) (fun hR => absurd hyb (not_lt.2 hR.1))
  · exact absurd (hyb.trans hb) hym
  · have hD : (0 : ℚ) < ym - b := sub_pos.2 hb
    have haX : a ≤ a + (y - b) * (xm - a) / (ym - b) := by
      have hnum : 0 ≤ (y - b) * (xm - a) :=
        mul_nonneg (sub_nonneg.2 (le_of_not_lt hyb))
          (sub_nonneg.2 (le_of_lt ha))
      exact le_add_of_nonneg_right (div_nonneg hnum (le_of_lt hD))
    have hX : (x < a + (y - b) * (xm - a) / (ym - b)) ↔
        ((x - a) * (ym - b) < (y - b) * (xm - a)) := by
      rw [← sub_lt_iff_lt_add', lt_div_iff₀ hD]
    by_cases hxa : x < a
    · have hxX : x < a + (y - b) * (xm - a) / (ym - b) :=
        lt_of_lt_of_le hxa haX
      have e1v : crossing (x, y) (a, ym) (a, b) = true := by
        show (((decide (y < ym)) != decide (y < b)) &&
          decide (x < a + (y - ym) * (a - a) / (b - ym))) = true
        rw [decide_eq_true hym, decide_eq_false hyb,
          show a + (y - ym) * (a - a) / (b - ym) = a from by ring,
          decide_eq_true hxa]
        rfl
      have e2v : crossing (x, y) (a, b) (xm, ym) = true := by
        show (((decide (y < b)) != decide (y < ym)) &&
          decide (x < a + (y - b) * (xm - a) / (ym - b))) = true
        rw [decide_eq_false hyb, decide_eq_true hym, decide_eq_true hxX]
        rfl
      simp only [e1v, e2v, e3v]
      exact iff_of_false (by decide)
        (fun hR => absurd hR.2.2.1 (not_le.2 hxa))
    · by_cases hxX : x < a + (y - b) * (xm - a) / (ym - b)
      · have e1v : crossing (x, y) (a, ym) (a, b) = false := by
          show (((decide (y < ym)) != decide (y < b)) &&
            decide (x < a + (y - ym) * (a - a) / (b - ym))) = false
          rw [show a + (y - ym) * (a - a) / (b - ym) = a from by ring,
            decide_eq_false hxa, Bool.and_false]
        have e2v : crossing (x, y) (a, b) (xm, ym) = true := by
          show (((decide (y < b)) != decide (y < ym)) &&
            decide (x < a + (y - b) * (xm - a) / (ym - b))) = true
          rw [decide_eq_false hyb, decide_eq_true hym, decide_eq_true hxX]
          rfl
        simp only [e1v, e2v, e3v]
        exact iff_of_true (by decide)
          ⟨le_of_not_lt hyb, hym, le_of_not_lt hxa, hX.1 hxX⟩
      · have e1v : crossing (x, y) (a, ym) (a, b) = false := by
          show (((decide (y < ym)) != decide (y < b)) &&
            decide (x < a + (y - ym) * (a - a) / (b - ym))) = false
          rw [show a + (y - ym) * (a - a) / (b - ym) = a from by ring,
            decide_eq_false hxa, Bool.and_false]
        have e2v : crossing (x, y) (a, b) (xm, ym) = false := by
          show (((decide (y < b)) != decide (y < ym)) &&
            decide (x < a + (y - b) * (xm - a) / (ym - b))) = false
          rw [decide_eq_false hxX, Bool.and_false]
        simp only [e1v, e2v, e3v]
        exact iff_of_false (by decide)
          (fun hR => absurd (hX.2 hR.2.2.2) hxX)
  · have e1v : crossing (x, y) (a, ym) (a, b) = false := by
      show (((decide (y < ym)) != decide (y < b)) &&
        decide (x < a + (y - ym) * (a - a) / (b - ym))) = false
      rw [decide_eq_false hym, decide_eq_false hyb, bne_self_eq_false,
        Bool.false_and]
    have e2v : crossing (x, y) (a, b) (xm, ym) = false := by
      show (((decide (y < b)) != decide (y < ym)) &&
        decide (x < a + (y - b) * (xm - a) / (ym - b))) = false
      rw [decide_eq_false hyb, decide_eq_false hym, bne_self_eq_false,
        Bool.false_and]
    simp only [e1v, e2v, e3v]
    exact iff_of_false (by decide) (fun hR => absurd hR.2.1 hym)

/-- C6 counterexample: for the single-point frontier (1,1) with bounds
(2,2), the point (7/4, 5/4) is in-bounds and weakly dominated by (1,1), yet
lies strictly outside the triangle the code fills (its vertices are (1,2),
(1,1), (2,2), and 5/4 < 7/4 puts the point below the diagonal), so the
polygon does not cover exactly the dominated region. -/
theorem c6_counterexample :
    ¬ (∀ p : ℚ × ℚ, coveredByShade [1] [1] 2 2 p = true ↔
        dominatedInBounds [(1, 1)] 2 2 p) := by
  intro h
  have hd : dominatedInBounds [(1, 1)] 2 2 (7/4, 5/4) := by
    refine ⟨by norm_num, by norm_num, (1, 1), ?_, by norm_num, by norm_num⟩
    exact List.mem_singleton.2 rfl
  have hc := (h (7/4, 5/4)).2 hd
  have hch := (shadeTriangle_covered_iff 1 1 2 2 (by norm_num) (by norm_num)
    (7/4) (5/4)).1 hc
  rcases hch with ⟨-, -, -, hlt⟩
  norm_num at hlt

/-- C6 (amended): for a single-point frontier (a,b) with bounds strictly
beyond it, the shading polygon is the triangle (a,y_max), (a,b),
(x_max,y_max); its fill covers exactly the region above the diagonal —
characterised by `b ≤ y < y_max`, `a ≤ x` and
`(x-a)(y_max-b) < (y-b)(x_max-a)` — which is non-degenerate (it covers a
point) but is a proper subset of the claim's dominated in-bounds region
(the dominated corner (x_max, b) is not covered): the fill follows the
straight chain to (x_max, y_max), not the staircase. -/
theorem c6_shade_polygon_triangle (a b xm ym : ℚ) (ha : a < xm) (hb : b < ym) :
    shade_dominated_region [a] [b] xm ym =
      Option.some ([a, a, xm], [ym, b, ym]) ∧
    (∀ x y : ℚ, coveredByShade [a] [b] xm ym (x, y) = true ↔
      (b ≤ y ∧ y < ym ∧ a ≤ x ∧ (x - a) * (ym - b) < (y - b) * (xm - a))) ∧
    coveredByShade [a] [b] xm ym (a, (b + ym) / 2) = true ∧
    (dominatedInBounds [(a, b)] xm ym (xm, b) ∧
      coveredByShade [a] [b] xm ym (xm, b) = false) := by
  have hchar := shadeTriangle_covered_iff a b xm ym ha hb
  refine ⟨rfl, hchar, ?_, ?_, ?_⟩
  · rw [hchar]
    refine ⟨by linarith, by linarith, le_refl _, ?_⟩
    rw [show (a - a) * (ym - b) = 0 from by ring]
    exact mul_pos (by linarith) (by linarith)
  · exact ⟨le_refl _, le_of_lt hb, (a, b), List.mem_singleton.2 rfl,
      le_of_lt ha, le_refl _⟩
  · rcases hcv : coveredByShade [a] [b] xm ym (xm, b) with - | -
    · rfl
    · have hR := (hchar xm b).1 hcv
      rcases hR with ⟨-, -, -, hlt⟩
      rw [show (b - b) * (xm - a) = 0 from by ring] at hlt
      exact absurd hlt (not_lt.2 (le_of_lt
        (mul_pos (sub_pos.2 ha) (sub_pos.2 hb))))

/-- Witness for C6: for the concrete triangle with frontier point (1,1) and
bounds (2,2), the interior point (1, 3/2) is covered by the shading. -/
theorem c6_witness :
    coveredByShade [1] [1] 2 2 (1, ((1 : ℚ) + 2) / 2) = true :=
  (c6_shade_polygon_triangle 1 1 2 2 (by norm_num) (by norm_num)).2.2.1

end Wildfire
